import Mathlib

/-!
Verification of the subenzyme-codec library: a storage-key derivation
function (two seeded XXH64 hashes combined into a 128-bit key) and an
SS58-style account-identifier codec (base-58 text with a blake2b-512
checksum).  Machine integers are modelled as `Nat` with explicit
reduction modulo `2 ^ 64` (or `2 ^ 128`); byte strings are `List Nat`
with every element below 256; fallible operations return `Except` or
`Option`.
-/

set_option maxRecDepth 8000

namespace SubenzymeCodec

/-- Mask selecting the low 64 bits of a word. -/
def mask64 : Nat := 2 ^ 64 - 1

/-- Addition modulo 2^64, modelling wrapping u64 addition. -/
def add64 (a b : Nat) : Nat := (a + b) % 2 ^ 64

/-- Multiplication modulo 2^64, modelling wrapping u64 multiplication. -/
def mul64 (a b : Nat) : Nat := (a * b) % 2 ^ 64

/-- Bitwise xor on 64-bit words; operands below 2^64 give a result below 2^64. -/
def xor64 (a b : Nat) : Nat := a ^^^ b

/-- Left rotation of a 64-bit word by n bits. -/
def rotl64 (x n : Nat) : Nat := ((x <<< n) ||| (x >>> (64 - n))) &&& mask64

/-- Right rotation of a 64-bit word by n bits. -/
def rotr64 (x n : Nat) : Nat := ((x >>> n) ||| (x <<< (64 - n))) &&& mask64

/-- Little-endian digits of n in base b, with explicit fuel so that the
recursion is structural and reduces inside the kernel. -/
def leDigitsAux (b : Nat) : Nat → Nat → List Nat
  | _, 0 => []
  | 0, _ + 1 => []
  | fuel + 1, n + 1 => (n + 1) % b :: leDigitsAux b fuel ((n + 1) / b)

/-- Little-endian base-b digits of n (empty for 0, least significant first). -/
def leDigits (b n : Nat) : List Nat := leDigitsAux b n n

/-- Value of a little-endian digit list in base b. -/
def ofLeDigits (b : Nat) (l : List Nat) : Nat := l.foldr (fun d acc => d + b * acc) 0

/-- Big-endian base-b digits of n, most significant first. -/
def beDigits (b n : Nat) : List Nat := (leDigits b n).reverse

/-- Value of a big-endian digit list in base b. -/
def ofBeDigits (b : Nat) (l : List Nat) : Nat := l.foldl (fun acc d => acc * b + d) 0

/-- The k little-endian bytes of v. -/
def leBytes (k v : Nat) : List Nat := (List.range k).map (fun i => (v >>> (8 * i)) % 256)

/-- First multiplicative prime of XXH64. -/
def xxPrime1 : Nat := 11400714785074694791

/-- Second multiplicative prime of XXH64. -/
def xxPrime2 : Nat := 14029467366897019727

/-- Third multiplicative prime of XXH64. -/
def xxPrime3 : Nat := 1609587929392839161

/-- Fourth multiplicative prime of XXH64. -/
def xxPrime4 : Nat := 9650029242287828579

/-- Fifth multiplicative prime of XXH64. -/
def xxPrime5 : Nat := 2870177450012600261

/-- Read a k-byte little-endian word of l at offset off (missing bytes read as 0). -/
def readLE (l : List Nat) (off k : Nat) : Nat :=
  ofLeDigits 256 ((List.range k).map (fun j => l.getD (off + j) 0))

/-- One accumulator round of XXH64. -/
def xxRound (acc lane : Nat) : Nat :=
  mul64 (rotl64 (add64 acc (mul64 lane xxPrime2)) 31) xxPrime1

/-- Merge one accumulator into the converged hash of XXH64. -/
def xxMergeRound (acc v : Nat) : Nat :=
  add64 (mul64 (xor64 acc (xxRound 0 v)) xxPrime1) xxPrime4

/-- Main 32-byte stripe loop of XXH64, fuel-driven; returns the four
accumulators and the remaining bytes. -/
def xxStripes : Nat → List Nat → Nat × Nat × Nat × Nat → (Nat × Nat × Nat × Nat) × List Nat
  | 0, rest, vs => (vs, rest)
  | fuel + 1, rest, (v1, v2, v3, v4) =>
    if rest.length < 32 then ((v1, v2, v3, v4), rest)
    else
      xxStripes fuel (rest.drop 32)
        (xxRound v1 (readLE rest 0 8), xxRound v2 (readLE rest 8 8),
         xxRound v3 (readLE rest 16 8), xxRound v4 (readLE rest 24 8))

/-- Tail loop of XXH64 over the remaining (fewer than 32) bytes. -/
def xxTail : Nat → Nat → List Nat → Nat
  | _, acc, [] => acc
  | 0, acc, _ :: _ => acc
  | fuel + 1, acc, c :: cs =>
    if 8 ≤ (c :: cs).length then
      xxTail fuel
        (add64 (mul64 (rotl64 (xor64 acc (xxRound 0 (readLE (c :: cs) 0 8))) 27) xxPrime1) xxPrime4)
        ((c :: cs).drop 8)
    else if 4 ≤ (c :: cs).length then
      xxTail fuel
        (add64 (mul64 (rotl64 (xor64 acc (mul64 (readLE (c :: cs) 0 4) xxPrime1)) 23) xxPrime2) xxPrime3)
        ((c :: cs).drop 4)
    else
      xxTail fuel (mul64 (rotl64 (xor64 acc (mul64 c xxPrime5)) 11) xxPrime1) cs

/-- Final avalanche of XXH64. -/
def xxAvalanche (h : Nat) : Nat :=
  let h1 := mul64 (xor64 h (h >>> 33)) xxPrime2
  let h2 := mul64 (xor64 h1 (h1 >>> 29)) xxPrime3
  xor64 h2 (h2 >>> 32)

/-- XXH64 of a byte list with the given seed; models the digest computed by
the twox_hash crate's XxHash64. -/
def xxh64 (seed : Nat) (input : List Nat) : Nat :=
  let len := input.length
  let s := seed % 2 ^ 64
  let accRest :=
    if len < 32 then (add64 s xxPrime5, input)
    else
      let v0 := (add64 s (add64 xxPrime1 xxPrime2), add64 s xxPrime2, s,
                 add64 s (2 ^ 64 - xxPrime1))
      let sr := xxStripes len input v0
      let vs := sr.1
      let conv := add64 (add64 (rotl64 vs.1 1) (rotl64 vs.2.1 7))
                        (add64 (rotl64 vs.2.2.1 12) (rotl64 vs.2.2.2 18))
      let merged := xxMergeRound (xxMergeRound (xxMergeRound (xxMergeRound conv vs.1)
                      vs.2.1) vs.2.2.1) vs.2.2.2
      (merged, sr.2)
  xxAvalanche (xxTail len (add64 accRest.1 (len % 2 ^ 64)) accRest.2)

/-- Interface of a streaming hasher, modelling the std::hash::Hasher trait. -/
structure HasherModel (σ : Type) where
  write : σ → List Nat → σ
  finish : σ → Nat

/-- Default write_u8 of the Hasher trait, which writes the byte as a
one-element slice. -/
def writeU8 {σ : Type} (H : HasherModel σ) (st : σ) (b : Nat) : σ := H.write st [b % 256]

/-- State of the modelled XxHash64 hasher: the seed and the bytes written so far. -/
def XxState : Type := Nat × List Nat

/-- Models twox_hash XxHash64::with_seed. -/
def xxWithSeed (seed : Nat) : XxState := (seed, [])

/-- Models the XxHash64 hasher by its observable contract: write appends
bytes and finish returns XXH64 of everything written with the seed. -/
def xxHasher : HasherModel XxState :=
  { write := fun st new => (st.1, st.2 ++ new), finish := fun st => xxh64 st.1 st.2 }

/-- Port of hash_with_space: writes left, one ASCII space byte, then right,
and finishes the hasher. -/
def hash_with_space {σ : Type} (H : HasherModel σ) (hasher : σ) (left right : List Nat) : Nat :=
  H.finish (H.write (writeU8 H (H.write hasher left) 32) right)

/-- Models the composition u128::from_be(v.to_le()): the 16 little-endian
bytes of v, read back as a big-endian integer (a byte reversal). -/
def beOfLeBytes (v : Nat) : Nat := ofBeDigits 256 (leBytes 16 v)

/-- Port of storage_key; strings enter as their UTF-8 byte sequences. -/
def storage_key (module item : List Nat) : Nat :=
  let low := hash_with_space xxHasher (xxWithSeed 0) module item
  let high := hash_with_space xxHasher (xxWithSeed 1) module item
  let key := (high <<< 64) ||| low
  beOfLeBytes key

/-- UTF-8 encoding of a single code point. -/
def utf8Char (c : Nat) : List Nat :=
  if c < 128 then [c]
  else if c < 2048 then [192 + c / 64, 128 + c % 64]
  else if c < 65536 then [224 + c / 4096, 128 + c / 64 % 64, 128 + c % 64]
  else [240 + c / 262144, 128 + c / 4096 % 64, 128 + c / 64 % 64, 128 + c % 64]

/-- Concatenated image of a list under a list-valued function. -/
def catMap {α β : Type} (f : α → List β) : List α → List β
  | [] => []
  | a :: l => f a ++ catMap f l

/-- UTF-8 bytes of a string, modelling Rust str::as_bytes. -/
def strBytes (s : String) : List Nat := catMap utf8Char (s.data.map Char.toNat)

/-- Initialization vector of blake2b. -/
def blakeIV : List Nat :=
  [0x6a09e667f3bcc908, 0xbb67ae8584caa73b, 0x3c6ef372fe94f82b, 0xa54ff53a5f1d36f1,
   0x510e527fade682d1, 0x9b05688c2b3e6c1f, 0x1f83d9abfb41bd6b, 0x5be0cd19137e2179]

/-- Message schedule of blake2b (RFC 7693), one permutation row per round. -/
def blakeSigma : List (List Nat) :=
  [[0, 1, 2, 3, 4, 5, 6, 7, 8, 9, 10, 11, 12, 13, 14, 15],
   [14, 10, 4, 8, 9, 15, 13, 6, 1, 12, 0, 2, 11, 7, 5, 3],
   [11, 8, 12, 0, 5, 2, 15, 13, 10, 14, 3, 6, 7, 1, 9, 4],
   [7, 9, 3, 1, 13, 12, 11, 14, 2, 6, 5, 10, 4, 0, 15, 8],
   [9, 0, 5, 7, 2, 4, 10, 15, 14, 1, 11, 12, 6, 8, 3, 13],
   [2, 12, 6, 10, 0, 11, 8, 3, 4, 13, 7, 5, 15, 14, 1, 9],
   [12, 5, 1, 15, 14, 13, 4, 10, 0, 7, 6, 3, 9, 2, 8, 11],
   [13, 11, 7, 14, 12, 1, 3, 9, 5, 0, 15, 4, 8, 6, 2, 10],
   [6, 15, 14, 9, 11, 3, 0, 8, 12, 2, 13, 7, 1, 4, 10, 5],
   [10, 2, 8, 4, 7, 6, 1, 5, 15, 11, 9, 14, 3, 12, 13, 0]]

/-- Mixing function G of blake2b on the 16-word working vector. -/
def blakeG (v : List Nat) (a b c d x y : Nat) : List Nat :=
  let va := add64 (add64 (v.getD a 0) (v.getD b 0)) x
  let vd := rotr64 (xor64 (v.getD d 0) va) 32
  let vc := add64 (v.getD c 0) vd
  let vb := rotr64 (xor64 (v.getD b 0) vc) 24
  let va2 := add64 (add64 va vb) y
  let vd2 := rotr64 (xor64 vd va2) 16
  let vc2 := add64 vc vd2
  let vb2 := rotr64 (xor64 vb vc2) 63
  (((v.set a va2).set b vb2).set c vc2).set d vd2

/-- One full round of blake2b on the working vector, with message words m. -/
def blakeRound (m v : List Nat) (r : Nat) : List Nat :=
  let s := blakeSigma.getD (r % 10) []
  let mAt := fun i => m.getD (s.getD i 0) 0
  let v1 := blakeG v 0 4 8 12 (mAt 0) (mAt 1)
  let v2 := blakeG v1 1 5 9 13 (mAt 2) (mAt 3)
  let v3 := blakeG v2 2 6 10 14 (mAt 4) (mAt 5)
  let v4 := blakeG v3 3 7 11 15 (mAt 6) (mAt 7)
  let v5 := blakeG v4 0 5 10 15 (mAt 8) (mAt 9)
  let v6 := blakeG v5 1 6 11 12 (mAt 10) (mAt 11)
  let v7 := blakeG v6 2 7 8 13 (mAt 12) (mAt 13)
  blakeG v7 3 4 9 14 (mAt 14) (mAt 15)

/-- The 16 little-endian 64-bit message words of one 128-byte block. -/
def blakeWords (block : List Nat) : List Nat :=
  (List.range 16).map (fun i => readLE block (8 * i) 8)

/-- Compression function F of blake2b: h is the 8-word state, block the
(padded) 128-byte block, t the byte offset counter, last the final-block flag. -/
def blakeCompress (h block : List Nat) (t : Nat) (last : Bool) : List Nat :=
  let v0 := h ++ blakeIV
  let v1 := v0.set 12 (xor64 (v0.getD 12 0) (t % 2 ^ 64))
  let v2 := v1.set 13 (xor64 (v1.getD 13 0) (t / 2 ^ 64 % 2 ^ 64))
  let v3 := if last then v2.set 14 (xor64 (v2.getD 14 0) mask64) else v2
  let m := blakeWords block
  let w := (List.range 12).foldl (fun acc r => blakeRound m acc r) v3
  (List.range 8).map (fun i => xor64 (h.getD i 0) (xor64 (w.getD i 0) (w.getD (i + 8) 0)))

/-- Pads a block to 128 bytes with zeros. -/
def pad128 (block : List Nat) : List Nat := block ++ List.replicate (128 - block.length) 0

/-- Block loop of blake2b, fuel-driven: consumes full 128-byte blocks while
more than 128 bytes remain, then compresses the final (padded) block. -/
def blakeLoop : Nat → List Nat → List Nat → Nat → List Nat
  | 0, h, rest, count => blakeCompress h (pad128 rest) (count + rest.length) true
  | fuel + 1, h, rest, count =>
    if rest.length ≤ 128 then blakeCompress h (pad128 rest) (count + rest.length) true
    else blakeLoop fuel (blakeCompress h (rest.take 128) (count + 128) false)
           (rest.drop 128) (count + 128)

/-- Little-endian byte serialization of a list of 64-bit words. -/
def wordsToBytes : List Nat → List Nat
  | [] => []
  | w :: ws => leBytes 8 w ++ wordsToBytes ws

/-- The 64-byte blake2b-512 digest (unkeyed) of a byte list; models the
blake2b_simd crate's blake2b function. -/
def blake2b512 (msg : List Nat) : List Nat :=
  let h0 := blakeIV.set 0 (xor64 (blakeIV.getD 0 0) 0x01010040)
  wordsToBytes (blakeLoop msg.length h0 msg 0)

/-- The 7 ASCII bytes of the SS58 domain-separation literal "SS58PRE". -/
def ss58pre : List Nat := [83, 83, 53, 56, 80, 82, 69]

/-- Port of hash_account: blake2b-512 of "SS58PRE" concatenated with the bytes. -/
def hash_account (bytes : List Nat) : List Nat := blake2b512 (ss58pre ++ bytes)

/-- ASCII codes of the standard base-58 alphabet, in digit order; models the
bs58 crate's default alphabet. -/
def base58Alphabet : List Nat :=
  [49, 50, 51, 52, 53, 54, 55, 56, 57,
   65, 66, 67, 68, 69, 70, 71, 72, 74, 75, 76, 77, 78, 80, 81, 82, 83, 84, 85, 86, 87, 88, 89, 90,
   97, 98, 99, 100, 101, 102, 103, 104, 105, 106, 107, 109, 110, 111, 112, 113, 114, 115, 116,
   117, 118, 119, 120, 121, 122]

/-- Digit value of an ASCII code in the base-58 alphabet. -/
def digitVal (c : Nat) : Option Nat := base58Alphabet.findIdx? (fun a => a == c)

/-- Base-58 encoding of a byte list, as a list of ASCII codes: one '1' per
leading zero byte, then the big-endian base-58 digits of the value; models
the bs58 crate's encoder. -/
def encode58 (input : List Nat) : List Nat :=
  let zeros := (input.takeWhile (fun x => x == 0)).length
  List.replicate zeros 49 ++
    (beDigits 58 (ofBeDigits 256 input)).map (fun d => base58Alphabet.getD d 0)

/-- Decode failures of the bs58 crate's decoder. -/
inductive Bs58Error : Type where
  | invalidCharacter (c idx : Nat) : Bs58Error
  | nonAsciiCharacter (idx : Nat) : Bs58Error
deriving DecidableEq

/-- Modelled from the spec: the underlying decode-library's failure
description for malformed base-58 text (the bs58 crate is not part of this
repository; the reason text of this error is diagnostic only and no claim
depends on it). -/
def bs58ErrorText : Bs58Error → String
  | .invalidCharacter _ idx => "provided string contained invalid character at byte " ++ toString idx
  | .nonAsciiCharacter idx => "provided string contained a non-ascii character at byte " ++ toString idx

/-- Maps each input byte to its base-58 digit value, failing at the first
byte that is non-ASCII or outside the alphabet. -/
def decodeDigits : List Nat → Nat → Except Bs58Error (List Nat)
  | [], _ => .ok []
  | c :: rest, idx =>
    if 128 ≤ c then .error (.nonAsciiCharacter idx)
    else
      match digitVal c with
      | none => .error (.invalidCharacter c idx)
      | some d => (decodeDigits rest (idx + 1)).map (fun ds => d :: ds)

/-- Base-58 decoding of a list of ASCII codes to a byte list: one zero byte
per leading '1', then the big-endian bytes of the digit value; models the
bs58 crate's decoder. -/
def decode58 (input : List Nat) : Except Bs58Error (List Nat) :=
  (decodeDigits input 0).map (fun digits =>
    List.replicate ((input.takeWhile (fun x => x == 49)).length) 0 ++
      beDigits 256 (ofBeDigits 58 digits))

/-- Port of the AccountId newtype: exactly the 32 raw bytes. -/
structure AccountId : Type where
  bytes : List Nat
deriving DecidableEq

/-- Port of BadAccountId: an error carrying a human-readable reason. -/
structure BadAccountId : Type where
  reason : String
deriving DecidableEq

/-- Port of AccountId::to_string: base-58 of the prefix byte 42, the 32 id
bytes, and the first 2 bytes of the blake2b checksum. -/
def AccountId.to_string (a : AccountId) : String :=
  let bytes := 42 :: a.bytes
  let hash := hash_account bytes
  let full := bytes ++ hash.take 2
  String.mk ((encode58 full).map Char.ofNat)

/-- Rust range slicing l[a..b], which panics (None) unless a ≤ b ≤ len. -/
def sliceRange (l : List Nat) (a b : Nat) : Option (List Nat) :=
  if a ≤ b ∧ b ≤ l.length then some ((l.take b).drop a) else none

/-- Rust try_into for [u8; 32]: succeeds exactly when the slice has length 32. -/
def tryInto32 (l : List Nat) : Option (List Nat) :=
  if l.length = 32 then some l else none

/-- Body of from_str after a successful base-58 decode: the length check,
the slicing, the checksum comparison and the final try_into, with every
potentially panicking step (slicing, try_into().unwrap()) made explicit;
none models a panic. -/
def fromStrDecoded (bytes : List Nat) : Option (Except BadAccountId AccountId) :=
  if bytes.length ≠ 35 then
    some (.error { reason := "Expected 35 bytes in account ID but found " ++ toString bytes.length })
  else
    match sliceRange bytes 1 33, sliceRange bytes 0 33, sliceRange bytes 33 bytes.length with
    | some account, some front, some tail =>
      let hash := hash_account front
      if tail ≠ hash.take 2 then
        some (.error { reason := "Invalid hash in account ID" })
      else
        (tryInto32 account).map (fun arr => .ok (AccountId.mk arr))
    | _, _, _ => none

/-- Port of FromStr for AccountId with panics modelled as none. -/
def AccountId.fromStrChecked (s : String) : Option (Except BadAccountId AccountId) :=
  match decode58 (strBytes s) with
  | .error e => some (.error { reason := bs58ErrorText e })
  | .ok bytes => fromStrDecoded bytes

/-- Port of FromStr for AccountId (from_str); the default branch is
unreachable, as proved below. -/
def AccountId.from_str (s : String) : Except BadAccountId AccountId :=
  (AccountId.fromStrChecked s).getD (.error { reason := "" })

/-! ### Digit-conversion lemmas -/

theorem leDigitsAux_zero (b fuel : Nat) : leDigitsAux b fuel 0 = [] := by
  cases fuel <;> rfl

theorem leDigitsAux_fuel (b : Nat) (hb : 2 ≤ b) :
    ∀ f1 f2 n, n ≤ f1 → n ≤ f2 → leDigitsAux b f1 n = leDigitsAux b f2 n := by
  intro f1
  induction f1 using Nat.strong_induction_on with
  | _ f1 ih =>
    intro f2 n h1 h2
    cases n with
    | zero => cases f1 <;> cases f2 <;> rfl
    | succ m =>
      cases f1 with
      | zero => omega
      | succ p =>
        cases f2 with
        | zero => omega
        | succ q =>
          simp only [leDigitsAux]
          have hd : (m + 1) / b < m + 1 := Nat.div_lt_self (Nat.succ_pos m) hb
          rw [ih p (by omega) q ((m + 1) / b) (by omega) (by omega)]

theorem leDigits_zero (b : Nat) : leDigits b 0 = [] := rfl

theorem leDigits_succ (b : Nat) (hb : 2 ≤ b) (n : Nat) (hn : 0 < n) :
    leDigits b n = n % b :: leDigits b (n / b) := by
  cases n with
  | zero => omega
  | succ m =>
    show leDigitsAux b (m + 1) (m + 1) = _
    simp only [leDigitsAux]
    congr 1
    exact leDigitsAux_fuel b hb m ((m + 1) / b) ((m + 1) / b)
      (Nat.lt_succ_iff.mp (Nat.div_lt_self (Nat.succ_pos m) hb)) (le_refl _)

theorem ofLeDigits_nil (b : Nat) : ofLeDigits b [] = 0 := rfl

theorem ofLeDigits_cons (b d : Nat) (l : List Nat) :
    ofLeDigits b (d :: l) = d + b * ofLeDigits b l := rfl

theorem ofLeDigits_leDigits (b : Nat) (hb : 2 ≤ b) : ∀ n, ofLeDigits b (leDigits b n) = n := by
  intro n
  induction n using Nat.strong_induction_on with
  | _ n ih =>
    cases Nat.eq_zero_or_pos n with
    | inl h => subst h; rfl
    | inr h =>
      rw [leDigits_succ b hb n h, ofLeDigits_cons, ih (n / b) (Nat.div_lt_self h hb)]
      exact Nat.mod_add_div n b

theorem leDigits_lt (b : Nat) (hb : 2 ≤ b) : ∀ n, ∀ d ∈ leDigits b n, d < b := by
  intro n
  induction n using Nat.strong_induction_on with
  | _ n ih =>
    intro d hd
    cases Nat.eq_zero_or_pos n with
    | inl h => subst h; simp [leDigits_zero] at hd
    | inr h =>
      rw [leDigits_succ b hb n h] at hd
      rcases List.mem_cons.mp hd with h1 | h2
      · subst h1; exact Nat.mod_lt n (by omega)
      · exact ih (n / b) (Nat.div_lt_self h hb) d h2

theorem leDigits_getLast (b : Nat) (hb : 2 ≤ b) :
    ∀ n, 0 < n → (leDigits b n).getLast? ≠ some 0 := by
  intro n
  induction n using Nat.strong_induction_on with
  | _ n ih =>
    intro hn
    rw [leDigits_succ b hb n hn]
    by_cases hq : n / b = 0
    · rw [hq, leDigits_zero]
      have hnb : n < b := by
        by_contra hc
        have h1 : 1 ≤ n / b := (Nat.one_le_div_iff (show 0 < b by omega)).mpr (by omega)
        omega
      simp only [List.getLast?_singleton, ne_eq, Option.some.injEq]
      rw [Nat.mod_eq_of_lt hnb]
      omega
    · have hqpos : 0 < n / b := Nat.pos_of_ne_zero hq
      rw [leDigits_succ b hb (n / b) hqpos, List.getLast?_cons_cons,
          ← leDigits_succ b hb (n / b) hqpos]
      exact ih (n / b) (Nat.div_lt_self hn hb) hqpos

theorem ofLeDigits_pos (b : Nat) (hb : 1 ≤ b) :
    ∀ l : List Nat, l.getLast? ≠ some 0 → l ≠ [] → 0 < ofLeDigits b l := by
  intro l
  induction l with
  | nil => intro _ h; exact absurd rfl h
  | cons d rest ih =>
    intro hlast _
    cases rest with
    | nil =>
      have hd : d ≠ 0 := by simpa using hlast
      rw [ofLeDigits_cons, ofLeDigits_nil]
      omega
    | cons e rest2 =>
      have h2 : (e :: rest2).getLast? ≠ some 0 := by
        rwa [List.getLast?_cons_cons] at hlast
      have hpos := ih h2 (by simp)
      have hmul : 0 < b * ofLeDigits b (e :: rest2) := Nat.mul_pos (by omega) hpos
      rw [ofLeDigits_cons]
      omega

theorem leDigits_ofLeDigits (b : Nat) (hb : 2 ≤ b) :
    ∀ l : List Nat, (∀ d ∈ l, d < b) → l.getLast? ≠ some 0 →
      leDigits b (ofLeDigits b l) = l := by
  intro l
  induction l with
  | nil => intro _ _; rfl
  | cons d rest ih =>
    intro hlt hlast
    cases rest with
    | nil =>
      have hd : d ≠ 0 := by simpa using hlast
      have hdb : d < b := hlt d (by simp)
      rw [ofLeDigits_cons, ofLeDigits_nil, Nat.mul_zero, Nat.add_zero,
          leDigits_succ b hb d (by omega), Nat.mod_eq_of_lt hdb,
          Nat.div_eq_of_lt hdb, leDigits_zero]
    | cons e rest2 =>
      have h2 : (e :: rest2).getLast? ≠ some 0 := by
        rwa [List.getLast?_cons_cons] at hlast
      have hv : 0 < ofLeDigits b (e :: rest2) :=
        ofLeDigits_pos b (by omega) _ h2 (by simp)
      have hdb : d < b := hlt d (by simp)
      have hpos : 0 < d + b * ofLeDigits b (e :: rest2) := by
        have := Nat.mul_pos (show 0 < b by omega) hv; omega
      rw [ofLeDigits_cons, leDigits_succ b hb _ hpos]
      have hmod : (d + b * ofLeDigits b (e :: rest2)) % b = d := by
        rw [Nat.add_mul_mod_self_left]; exact Nat.mod_eq_of_lt hdb
      have hdiv : (d + b * ofLeDigits b (e :: rest2)) / b = ofLeDigits b (e :: rest2) := by
        rw [Nat.add_mul_div_left _ _ (show 0 < b by omega), Nat.div_eq_of_lt hdb,
            Nat.zero_add]
      rw [hmod, hdiv, ih (fun x hx => hlt x (by simp [hx])) h2]

theorem ofBeDigits_nil (b : Nat) : ofBeDigits b [] = 0 := rfl

theorem ofBeDigits_append_singleton (b d : Nat) (l : List Nat) :
    ofBeDigits b (l ++ [d]) = ofBeDigits b l * b + d := by
  unfold ofBeDigits
  rw [List.foldl_append]
  simp only [List.foldl_cons, List.foldl_nil]

theorem ofBeDigits_reverse (b : Nat) : ∀ l : List Nat, ofBeDigits b l.reverse = ofLeDigits b l := by
  intro l
  induction l with
  | nil => rfl
  | cons d rest ih =>
    rw [List.reverse_cons, ofBeDigits_append_singleton, ih, ofLeDigits_cons]
    ring

theorem ofBeDigits_beDigits (b : Nat) (hb : 2 ≤ b) (n : Nat) :
    ofBeDigits b (beDigits b n) = n := by
  unfold beDigits
  rw [ofBeDigits_reverse]
  exact ofLeDigits_leDigits b hb n

theorem beDigits_ofBeDigits (b : Nat) (hb : 2 ≤ b) (l : List Nat)
    (hlt : ∀ d ∈ l, d < b) (hhead : l.head? ≠ some 0) :
    beDigits b (ofBeDigits b l) = l := by
  have h1 : ofBeDigits b l = ofLeDigits b l.reverse := by
    rw [← ofBeDigits_reverse b l.reverse, List.reverse_reverse]
  unfold beDigits
  rw [h1, leDigits_ofLeDigits b hb l.reverse
    (fun d hd => hlt d (List.mem_reverse.mp hd))
    (by rwa [List.getLast?_reverse]), List.reverse_reverse]

theorem beDigits_head (b : Nat) (hb : 2 ≤ b) (n : Nat) (hn : 0 < n) :
    (beDigits b n).head? ≠ some 0 := by
  unfold beDigits
  rw [List.head?_reverse]
  exact leDigits_getLast b hb n hn

theorem beDigits_lt (b : Nat) (hb : 2 ≤ b) (n : Nat) : ∀ d ∈ beDigits b n, d < b :=
  fun d hd => leDigits_lt b hb n d (List.mem_reverse.mp hd)

theorem ofBeDigits_cons_zero (b : Nat) (l : List Nat) :
    ofBeDigits b (0 :: l) = ofBeDigits b l := by
  unfold ofBeDigits
  simp

theorem ofBeDigits_replicate_zero (b : Nat) : ∀ (z : Nat) (l : List Nat),
    ofBeDigits b (List.replicate z 0 ++ l) = ofBeDigits b l := by
  intro z
  induction z with
  | zero => intro l; rfl
  | succ m ih =>
    intro l
    rw [List.replicate_succ, List.cons_append, ofBeDigits_cons_zero, ih]

theorem ofBeDigits_head_pos (b : Nat) (hb : 1 ≤ b) (l : List Nat)
    (hhead : l.head? ≠ some 0) (hne : l ≠ []) : 0 < ofBeDigits b l := by
  have h1 : ofBeDigits b l = ofLeDigits b l.reverse := by
    rw [← ofBeDigits_reverse b l.reverse, List.reverse_reverse]
  rw [h1]
  exact ofLeDigits_pos b hb l.reverse (by rwa [List.getLast?_reverse]) (by simpa using hne)

theorem ofLeDigits_lt (b : Nat) (_hb : 1 ≤ b) :
    ∀ l : List Nat, (∀ d ∈ l, d < b) → ofLeDigits b l < b ^ l.length := by
  intro l
  induction l with
  | nil => intro _; simp [ofLeDigits_nil]
  | cons d rest ih =>
    intro hlt
    have hd : d < b := hlt d (by simp)
    have hv : ofLeDigits b rest < b ^ rest.length := ih (fun x hx => hlt x (by simp [hx]))
    have h1 : b * (ofLeDigits b rest + 1) ≤ b * b ^ rest.length :=
      Nat.mul_le_mul_left b (Nat.succ_le_of_lt hv)
    rw [ofLeDigits_cons, List.length_cons, pow_succ]
    have h2 : b ^ rest.length * b = b * b ^ rest.length := Nat.mul_comm _ _
    rw [h2]
    have h3 : b * (ofLeDigits b rest + 1) = b * ofLeDigits b rest + b := by ring
    omega

theorem ofBeDigits_lt (b : Nat) (hb : 1 ≤ b) (l : List Nat)
    (hlt : ∀ d ∈ l, d < b) : ofBeDigits b l < b ^ l.length := by
  have h1 : ofBeDigits b l = ofLeDigits b l.reverse := by
    rw [← ofBeDigits_reverse b l.reverse, List.reverse_reverse]
  rw [h1, ← List.length_reverse l]
  exact ofLeDigits_lt b hb l.reverse (fun d hd => hlt d (List.mem_reverse.mp hd))

/-! ### takeWhile and dropWhile helpers -/

theorem takeWhile_eq_replicate (a : Nat) : ∀ l : List Nat,
    l.takeWhile (fun x => x == a) =
      List.replicate (l.takeWhile (fun x => x == a)).length a := by
  intro l
  induction l with
  | nil => rfl
  | cons c rest ih =>
    by_cases h : c = a
    · subst h
      rw [List.takeWhile_cons_of_pos (by simp)]
      simp only [List.length_cons, List.replicate_succ]
      exact congrArg (List.cons c) ih
    · rw [List.takeWhile_cons_of_neg (by simp [h])]
      rfl

theorem head_dropWhile_ne (a : Nat) : ∀ l : List Nat,
    (l.dropWhile (fun x => x == a)).head? ≠ some a := by
  intro l
  induction l with
  | nil => simp
  | cons c rest ih =>
    by_cases h : c = a
    · rw [List.dropWhile_cons_of_pos (by simp [h])]
      exact ih
    · rw [List.dropWhile_cons_of_neg (by simp [h])]
      simp only [List.head?_cons, ne_eq, Option.some.injEq]
      exact h

theorem takeWhile_replicate_append (a : Nat) (rest : List Nat)
    (h : ∀ c, rest.head? = some c → c ≠ a) :
    ∀ z : Nat, (List.replicate z a ++ rest).takeWhile (fun x => x == a) =
      List.replicate z a := by
  intro z
  induction z with
  | zero =>
    simp only [List.replicate, List.nil_append]
    cases rest with
    | nil => rfl
    | cons c cs =>
      have hc : c ≠ a := h c rfl
      rw [List.takeWhile_cons_of_neg (by simp [hc])]
  | succ m ih =>
    rw [List.replicate_succ, List.cons_append,
        List.takeWhile_cons_of_pos (by simp), ih, ← List.replicate_succ]

/-! ### Alphabet facts, established by computation -/

theorem alphabet_ascii : ∀ c ∈ base58Alphabet, c < 128 ∧ Char.toNat (Char.ofNat c) = c := by
  decide

theorem alphabet_digitVal_isSome : ∀ c ∈ base58Alphabet, (digitVal c).isSome := by
  decide

theorem alphabet_getD_mem : ∀ d : Fin 58, base58Alphabet.getD d.val 0 ∈ base58Alphabet := by
  decide

theorem digitVal_getD : ∀ d : Fin 58, digitVal (base58Alphabet.getD d.val 0) = some d.val := by
  decide

theorem alphabet_getD_ne_one : ∀ d : Fin 58, d.val ≠ 0 → base58Alphabet.getD d.val 0 ≠ 49 := by
  decide

theorem one_mem_alphabet : 49 ∈ base58Alphabet := by decide

theorem digitVal_one : digitVal 49 = some 0 := by decide

/-! ### Base-58 round trip -/

theorem decodeDigits_ok : ∀ l : List Nat,
    (∀ c ∈ l, c < 128 ∧ (digitVal c).isSome) →
    ∀ idx, decodeDigits l idx = .ok (l.map (fun c => (digitVal c).getD 0)) := by
  intro l
  induction l with
  | nil => intro _ idx; rfl
  | cons c rest ih =>
    intro h idx
    obtain ⟨hc, hd⟩ := h c (by simp)
    unfold decodeDigits
    rw [if_neg (by omega)]
    obtain ⟨d, hdv⟩ := Option.isSome_iff_exists.mp hd
    rw [hdv, ih (fun x hx => h x (by simp [hx])) (idx + 1)]
    simp [Except.map, hdv]

theorem encode58_mem_alphabet (l : List Nat) : ∀ c ∈ encode58 l, c ∈ base58Alphabet := by
  intro c hc
  unfold encode58 at hc
  rcases List.mem_append.mp hc with h | h
  · rw [List.eq_of_mem_replicate h]
    exact one_mem_alphabet
  · obtain ⟨d, hd, rfl⟩ := List.mem_map.mp h
    have hlt : d < 58 := beDigits_lt 58 (by omega) _ d hd
    exact alphabet_getD_mem ⟨d, hlt⟩

theorem decode58_encode58 (l : List Nat) (hl : ∀ x ∈ l, x < 256) :
    decode58 (encode58 l) = .ok l := by
  have hz : l.takeWhile (fun x => x == 0) =
      List.replicate (l.takeWhile (fun x => x == 0)).length 0 := takeWhile_eq_replicate 0 l
  have hsplit : List.replicate (l.takeWhile (fun x => x == 0)).length 0 ++
      l.dropWhile (fun x => x == 0) = l := by
    rw [← hz]; exact List.takeWhile_append_dropWhile (fun x => x == 0) l
  have hrhead : (l.dropWhile (fun x => x == 0)).head? ≠ some 0 := head_dropWhile_ne 0 l
  have hrlt : ∀ x ∈ l.dropWhile (fun x => x == 0), x < 256 :=
    fun x hx => hl x ((List.dropWhile_sublist _).subset hx)
  have hn : ofBeDigits 256 l = ofBeDigits 256 (l.dropWhile (fun x => x == 0)) := by
    rw [← hsplit, ofBeDigits_replicate_zero, hsplit]
  have hback : beDigits 256 (ofBeDigits 256 l) = l.dropWhile (fun x => x == 0) := by
    rw [hn]
    exact beDigits_ofBeDigits 256 (by omega) _ hrlt hrhead
  have hchars : ∀ c ∈ (beDigits 58 (ofBeDigits 256 l)).map
      (fun d => base58Alphabet.getD d 0), c ∈ base58Alphabet := by
    intro c hc
    obtain ⟨d, hd, rfl⟩ := List.mem_map.mp hc
    exact alphabet_getD_mem ⟨d, beDigits_lt 58 (by omega) _ d hd⟩
  have hvalid : ∀ c ∈ encode58 l, c < 128 ∧ (digitVal c).isSome := by
    intro c hc
    have hmem := encode58_mem_alphabet l c hc
    exact ⟨(alphabet_ascii c hmem).1, alphabet_digitVal_isSome c hmem⟩
  have hdigits : decodeDigits (encode58 l) 0 =
      .ok ((encode58 l).map (fun c => (digitVal c).getD 0)) :=
    decodeDigits_ok (encode58 l) hvalid 0
  have hmapped : (encode58 l).map (fun c => (digitVal c).getD 0) =
      List.replicate (l.takeWhile (fun x => x == 0)).length 0 ++
        beDigits 58 (ofBeDigits 256 l) := by
    unfold encode58
    rw [List.map_append, List.map_replicate, digitVal_one, Option.getD_some, List.map_map]
    have hcongr : ∀ d ∈ beDigits 58 (ofBeDigits 256 l),
        ((fun c => (digitVal c).getD 0) ∘ fun d => base58Alphabet.getD d 0) d = id d := by
      intro d hd
      have hlt : d < 58 := beDigits_lt 58 (by omega) _ d hd
      simp only [Function.comp_apply, id_eq]
      rw [digitVal_getD ⟨d, hlt⟩]
      rfl
    rw [List.map_congr_left hcongr, List.map_id]
  have hzeros : ((encode58 l).takeWhile (fun x => x == 49)).length =
      (l.takeWhile (fun x => x == 0)).length := by
    unfold encode58
    by_cases hpos : 0 < ofBeDigits 256 l
    · rw [takeWhile_replicate_append 49 _ (by
        intro c hc hca
        rw [List.head?_map] at hc
        cases hh : (beDigits 58 (ofBeDigits 256 l)).head? with
        | none => rw [hh] at hc; exact Option.noConfusion hc
        | some d =>
          rw [hh] at hc
          have hd58 : d < 58 := by
            have := List.mem_of_mem_head? hh
            exact beDigits_lt 58 (by omega) _ d this
          have hd0 : d ≠ 0 := by
            intro h0
            exact beDigits_head 58 (by omega) _ hpos (by rw [hh, h0])
          have : base58Alphabet.getD d 0 = c := by
            simpa using hc
          rw [← this] at hca
          exact alphabet_getD_ne_one ⟨d, hd58⟩ hd0 hca)]
      rw [List.length_replicate]
    · have h0 : ofBeDigits 256 l = 0 := by omega
      rw [h0, show beDigits 58 0 = [] from rfl, List.map_nil, List.append_nil]
      have hrep : (List.replicate (l.takeWhile (fun x => x == 0)).length 49).takeWhile
          (fun x => x == 49) = List.replicate (l.takeWhile (fun x => x == 0)).length 49 := by
        have hx := takeWhile_replicate_append 49 [] (by intro c hc; simp at hc)
          (l.takeWhile (fun x => x == 0)).length
        rwa [List.append_nil] at hx
      rw [hrep, List.length_replicate]
  unfold decode58
  rw [hdigits]
  simp only [Except.map]
  rw [hmapped, hzeros, ofBeDigits_replicate_zero, ofBeDigits_beDigits 58 (by omega), hback,
      hsplit]

/-! ### Strings made of alphabet characters -/

theorem utf8Char_ascii (c : Nat) (h : c < 128) : utf8Char c = [c] := by
  unfold utf8Char
  rw [if_pos h]

theorem catMap_utf8_codes : ∀ codes : List Nat, (∀ c ∈ codes, c ∈ base58Alphabet) →
    catMap utf8Char (codes.map (Char.toNat ∘ Char.ofNat)) = codes := by
  intro codes
  induction codes with
  | nil => intro _; rfl
  | cons c rest ih =>
    intro h
    obtain ⟨hlt, heq⟩ := alphabet_ascii c (h c (by simp))
    rw [List.map_cons]
    show utf8Char ((Char.toNat ∘ Char.ofNat) c) ++
      catMap utf8Char (rest.map (Char.toNat ∘ Char.ofNat)) = c :: rest
    rw [Function.comp_apply, heq, utf8Char_ascii c hlt,
        ih (fun x hx => h x (by simp [hx]))]
    rfl

theorem strBytes_mk (codes : List Nat) (h : ∀ c ∈ codes, c ∈ base58Alphabet) :
    strBytes (String.mk (codes.map Char.ofNat)) = codes := by
  show catMap utf8Char ((codes.map Char.ofNat).map Char.toNat) = codes
  rw [List.map_map]
  exact catMap_utf8_codes codes h

/-! ### Lengths and byte bounds of the blake2b digest -/

theorem leBytes_length (k v : Nat) : (leBytes k v).length = k := by
  simp [leBytes]

theorem leBytes_lt (k v : Nat) : ∀ x ∈ leBytes k v, x < 256 := by
  intro x hx
  obtain ⟨i, _, rfl⟩ := List.mem_map.mp hx
  exact Nat.mod_lt _ (by omega)

theorem wordsToBytes_length : ∀ ws : List Nat, (wordsToBytes ws).length = 8 * ws.length := by
  intro ws
  induction ws with
  | nil => rfl
  | cons w rest ih =>
    show (leBytes 8 w ++ wordsToBytes rest).length = _
    rw [List.length_append, leBytes_length, ih, List.length_cons]
    ring

theorem wordsToBytes_lt : ∀ ws : List Nat, ∀ x ∈ wordsToBytes ws, x < 256 := by
  intro ws
  induction ws with
  | nil => intro x hx; simp [wordsToBytes] at hx
  | cons w rest ih =>
    intro x hx
    rcases List.mem_append.mp (by simpa [wordsToBytes] using hx) with h | h
    · exact leBytes_lt 8 w x h
    · exact ih x h

theorem blakeCompress_length (h block : List Nat) (t : Nat) (last : Bool) :
    (blakeCompress h block t last).length = 8 := by
  unfold blakeCompress
  simp

theorem blakeLoop_length : ∀ (fuel : Nat) (h rest : List Nat) (count : Nat),
    (blakeLoop fuel h rest count).length = 8 := by
  intro fuel
  induction fuel with
  | zero => intro h rest count; exact blakeCompress_length _ _ _ _
  | succ m ih =>
    intro h rest count
    unfold blakeLoop
    by_cases hc : rest.length ≤ 128
    · rw [if_pos hc]; exact blakeCompress_length _ _ _ _
    · rw [if_neg hc]; exact ih _ _ _

theorem blake2b512_length (msg : List Nat) : (blake2b512 msg).length = 64 := by
  show (wordsToBytes _).length = 64
  rw [wordsToBytes_length, blakeLoop_length]

theorem blake2b512_lt (msg : List Nat) : ∀ x ∈ blake2b512 msg, x < 256 := by
  intro x hx
  exact wordsToBytes_lt _ x hx

theorem hash_account_length (bytes : List Nat) : (hash_account bytes).length = 64 :=
  blake2b512_length _

theorem hash_account_lt (bytes : List Nat) : ∀ x ∈ hash_account bytes, x < 256 :=
  blake2b512_lt _

/-! ### Decoding the base-58 encoding of a 35-byte sequence -/

theorem fromStrDecoded_eq (bytes : List Nat) (hlen : bytes.length = 35) :
    fromStrDecoded bytes =
      some (if bytes.drop 33 = (hash_account (bytes.take 33)).take 2
        then .ok ⟨(bytes.take 33).drop 1⟩
        else .error ⟨"Invalid hash in account ID"⟩) := by
  unfold fromStrDecoded
  rw [hlen, if_neg (by omega)]
  have h1 : sliceRange bytes 1 33 = some ((bytes.take 33).drop 1) := by
    unfold sliceRange
    rw [if_pos ⟨by omega, by omega⟩]
  have h2 : sliceRange bytes 0 33 = some (bytes.take 33) := by
    unfold sliceRange
    rw [if_pos ⟨by omega, by omega⟩, List.drop_zero]
  have h3 : sliceRange bytes 33 35 = some (bytes.drop 33) := by
    unfold sliceRange
    rw [if_pos ⟨by omega, by omega⟩, List.take_of_length_le (by omega)]
  rw [h1, h2, h3]
  show (if bytes.drop 33 ≠ (hash_account (bytes.take 33)).take 2 then _ else _) = _
  by_cases hcond : bytes.drop 33 = (hash_account (bytes.take 33)).take 2
  · rw [if_neg (not_not_intro hcond), if_pos hcond]
    have hacc : tryInto32 ((bytes.take 33).drop 1) = some ((bytes.take 33).drop 1) := by
      unfold tryInto32
      rw [if_pos (by rw [List.length_drop, List.length_take, hlen]; decide)]
    rw [hacc]
    rfl
  · rw [if_pos hcond, if_neg hcond]

theorem from_str_encode58 (bytes : List Nat) (hlen : bytes.length = 35)
    (hlt : ∀ x ∈ bytes, x < 256) :
    AccountId.from_str (String.mk ((encode58 bytes).map Char.ofNat)) =
      if bytes.drop 33 = (hash_account (bytes.take 33)).take 2
        then .ok ⟨(bytes.take 33).drop 1⟩
        else .error ⟨"Invalid hash in account ID"⟩ := by
  have hs : strBytes (String.mk ((encode58 bytes).map Char.ofNat)) = encode58 bytes :=
    strBytes_mk _ (encode58_mem_alphabet bytes)
  unfold AccountId.from_str AccountId.fromStrChecked
  rw [hs, decode58_encode58 bytes hlt]
  show (fromStrDecoded bytes).getD _ = _
  rw [fromStrDecoded_eq bytes hlen]
  rfl

/-! ### The storage key as the spec words it -/

/-- The storage-key derivation following the specification text: hash the
concatenated byte sequence module ++ 0x20 ++ item with seeds 0 (low) and
1 (high), form v = high <<< 64 ||| low, and reinterpret v's little-endian
bytes as a big-endian integer. -/
def storage_key_spec (module item : List Nat) : Nat :=
  let bytes := module ++ 32 :: item
  let low := xxh64 0 bytes
  let high := xxh64 1 bytes
  let v := (high <<< 64) ||| low
  ofBeDigits 256 (leBytes 16 v)

theorem storage_key_eq_spec (module item : List Nat) :
    storage_key module item = storage_key_spec module item := by
  have hb : (module ++ [32]) ++ item = module ++ 32 :: item := by simp
  show ofBeDigits 256 (leBytes 16
      ((xxh64 1 ((module ++ [32]) ++ item)) <<< 64 ||| xxh64 0 ((module ++ [32]) ++ item))) =
    ofBeDigits 256 (leBytes 16
      ((xxh64 1 (module ++ 32 :: item)) <<< 64 ||| xxh64 0 (module ++ 32 :: item)))
  rw [hb]

theorem storage_key_lt (module item : List Nat) : storage_key module item < 2 ^ 128 := by
  have h256 : (256 : Nat) ^ 16 = 2 ^ 128 := by norm_num
  have h := ofBeDigits_lt 256 (by omega)
    (leBytes 16 ((hash_with_space xxHasher (xxWithSeed 1) module item) <<< 64 |||
      hash_with_space xxHasher (xxWithSeed 0) module item))
    (leBytes_lt 16 _)
  rw [leBytes_length, h256] at h
  exact h

/-! ### Totality of decoding -/

theorem fromStrChecked_isSome (s : String) : (AccountId.fromStrChecked s).isSome := by
  unfold AccountId.fromStrChecked
  cases hd : decode58 (strBytes s) with
  | error e => rfl
  | ok bytes =>
    show (fromStrDecoded bytes).isSome
    by_cases hl : bytes.length = 35
    · rw [fromStrDecoded_eq bytes hl]; rfl
    · unfold fromStrDecoded
      rw [if_pos hl]; rfl

/-! ### Models of the derived instances on AccountId -/

/-- Models the derived PartialEq instance: byte-wise equality of the
wrapped 32-byte arrays. -/
def accountIdEq (a b : AccountId) : Bool := a.bytes == b.bytes

/-- Models the derived Hash instance: the 32 raw bytes are fed to the
hasher and nothing else distinguishes two values. -/
def accountIdHash {σ : Type} (H : HasherModel σ) (st : σ) (a : AccountId) : σ :=
  H.write st a.bytes

/-- Lexicographic comparison of byte lists, the order of the underlying
32-byte arrays. -/
def cmpBytes : List Nat → List Nat → Ordering
  | [], [] => .eq
  | [], _ :: _ => .lt
  | _ :: _, [] => .gt
  | x :: xs, y :: ys =>
    match compare x y with
    | .eq => cmpBytes xs ys
    | o => o

/-- Option-valued lexicographic comparison, modelling the derived
PartialOrd instance (partial_cmp delegating to the wrapped arrays). -/
def optCmpBytes : List Nat → List Nat → Option Ordering
  | [], [] => some .eq
  | [], _ :: _ => some .lt
  | _ :: _, [] => some .gt
  | x :: xs, y :: ys =>
    match compare x y with
    | .eq => optCmpBytes xs ys
    | o => some o

/-- Models partial_cmp of the derived PartialOrd on AccountId. -/
def accountIdCmpOpt (a b : AccountId) : Option Ordering := optCmpBytes a.bytes b.bytes

theorem optCmpBytes_total : ∀ l1 l2 : List Nat, optCmpBytes l1 l2 = some (cmpBytes l1 l2) := by
  intro l1
  induction l1 with
  | nil => intro l2; cases l2 <;> rfl
  | cons x xs ih =>
    intro l2
    cases l2 with
    | nil => rfl
    | cons y ys =>
      show (match compare x y with | .eq => optCmpBytes xs ys | o => some o) =
        some (match compare x y with | .eq => cmpBytes xs ys | o => o)
      cases compare x y
      · rfl
      · exact ih ys
      · rfl

theorem cmpBytes_eq_iff : ∀ l1 l2 : List Nat, cmpBytes l1 l2 = .eq ↔ l1 = l2 := by
  intro l1
  induction l1 with
  | nil => intro l2; cases l2 <;> simp [cmpBytes]
  | cons x xs ih =>
    intro l2
    cases l2 with
    | nil => simp [cmpBytes]
    | cons y ys =>
      show (match compare x y with | .eq => cmpBytes xs ys | o => o) = .eq ↔ _
      rcases h : compare x y with _ | _ | _
      · constructor
        · intro hc; simp at hc
        · intro hc
          injection hc with h1 h2
          subst h1
          rw [compare_lt_iff_lt] at h
          exact absurd h (lt_irrefl x)
      · have hxy : x = y := compare_eq_iff_eq.mp h
        subst hxy
        constructor
        · intro hc; rw [(ih ys).mp hc]
        · intro hc
          injection hc with h1 h2
          exact (ih ys).mpr h2
      · constructor
        · intro hc; simp at hc
        · intro hc
          injection hc with h1 h2
          subst h1
          rw [compare_gt_iff_gt] at h
          exact absurd h (lt_irrefl x)

/-! ### The claims -/

/-- C1: decoding the text produced by encoding any 32-byte identifier
succeeds and returns exactly that identifier:
from_str (to_string x) = Ok x. -/
theorem claim1_roundtrip (x : List Nat) (hlen : x.length = 32)
    (hlt : ∀ b ∈ x, b < 256) :
    AccountId.from_str (AccountId.to_string ⟨x⟩) = .ok ⟨x⟩ := by
  have hfull : AccountId.to_string ⟨x⟩ =
      String.mk ((encode58 ((42 :: x) ++ (hash_account (42 :: x)).take 2)).map Char.ofNat) := rfl
  rw [hfull]
  have hlenf : ((42 :: x) ++ (hash_account (42 :: x)).take 2).length = 35 := by
    rw [List.length_append, List.length_cons, hlen, List.length_take, hash_account_length]
    omega
  have hltf : ∀ b ∈ (42 :: x) ++ (hash_account (42 :: x)).take 2, b < 256 := by
    intro b hb
    rcases List.mem_append.mp hb with h | h
    · rcases List.mem_cons.mp h with h1 | h2
      · omega
      · exact hlt b h2
    · exact hash_account_lt (42 :: x) b (List.take_subset 2 _ h)
  have htake : ((42 :: x) ++ (hash_account (42 :: x)).take 2).take 33 = 42 :: x :=
    List.take_left' (by rw [List.length_cons, hlen])
  have hdrop : ((42 :: x) ++ (hash_account (42 :: x)).take 2).drop 33 =
      (hash_account (42 :: x)).take 2 :=
    List.drop_left' (by rw [List.length_cons, hlen])
  rw [from_str_encode58 _ hlenf hltf, hdrop, htake, if_pos rfl]
  rfl

theorem claim1_roundtrip_witness :
    (List.replicate 32 7).length = 32 ∧
    AccountId.from_str (AccountId.to_string ⟨List.replicate 32 7⟩) =
      .ok ⟨List.replicate 32 7⟩ :=
  ⟨by decide, claim1_roundtrip (List.replicate 32 7) (by decide) (by decide)⟩

/-- C2: storage_key hashes module_bytes ++ 0x20 ++ item_bytes with seed 0
(low) and seed 1 (high), forms high <<< 64 ||| low, and returns the value
read big-endian from the little-endian bytes of that word; it is a total
deterministic function of the two byte strings and fits in 128 bits. -/
theorem claim2_storage_key_structure (module item : List Nat) :
    storage_key module item = storage_key_spec module item ∧
      storage_key module item < 2 ^ 128 :=
  ⟨storage_key_eq_spec module item, storage_key_lt module item⟩

/-- C3: the known vector storage_key("Sudo", "Key") =
0x50a63a871aced22e88ee6466fe5aa5d9 holds. -/
theorem claim3_sudo_key_vector :
    storage_key (strBytes "Sudo") (strBytes "Key") = 0x50a63a871aced22e88ee6466fe5aa5d9 := by
  decide

/-- C4: the identifier d43593c7...a27d encodes to the known text
5GrwvaEF5zXb26Fz9rcQpDWS57CtERHpNehXCPcNoHGKutQY. -/
theorem claim4_account_vector :
    AccountId.to_string ⟨[0xd4, 0x35, 0x93, 0xc7, 0x15, 0xfd, 0xd3, 0x1c,
      0x61, 0x14, 0x1a, 0xbd, 0x04, 0xa9, 0x9f, 0xd6, 0x82, 0x2c, 0x85, 0x58,
      0x85, 0x4c, 0xcd, 0xe3, 0x9a, 0x56, 0x84, 0xe7, 0xa5, 0x6d, 0xa2, 0x7d]⟩ =
      "5GrwvaEF5zXb26Fz9rcQpDWS57CtERHpNehXCPcNoHGKutQY" := by
  decide

/-- C5: decoding validates fail-fast in a fixed order: a successful base-58
decode of n ≠ 35 bytes yields exactly the length error with the observed n
(the checksum is never examined), and a 35-byte decode whose last two bytes
differ from the recomputed blake2b checksum yields exactly the
invalid-hash error. -/
theorem claim5_error_order (s : String) (bytes : List Nat)
    (hdec : decode58 (strBytes s) = .ok bytes) :
    (bytes.length ≠ 35 →
      AccountId.from_str s =
        .error ⟨"Expected 35 bytes in account ID but found " ++ toString bytes.length⟩) ∧
    (bytes.length = 35 →
      bytes.drop 33 ≠ (hash_account (bytes.take 33)).take 2 →
      AccountId.from_str s = .error ⟨"Invalid hash in account ID"⟩) := by
  have hbase : AccountId.from_str s = (fromStrDecoded bytes).getD (.error ⟨""⟩) := by
    unfold AccountId.from_str AccountId.fromStrChecked
    rw [hdec]
  constructor
  · intro hne
    rw [hbase]
    unfold fromStrDecoded
    rw [if_pos hne]
    rfl
  · intro hlen hck
    rw [hbase, fromStrDecoded_eq bytes hlen, if_neg hck]
    rfl

theorem claim5_error_order_witness :
    (AccountId.from_str "" = .error ⟨"Expected 35 bytes in account ID but found 0"⟩) ∧
    (AccountId.from_str "11111111111111111111111111111111111" =
      .error ⟨"Invalid hash in account ID"⟩) := by
  constructor
  · exact (claim5_error_order "" [] rfl).1 (by decide)
  · exact (claim5_error_order "11111111111111111111111111111111111"
      (List.replicate 35 0) rfl).2 (by decide) (by decide)

/-- C6: the prefix byte is never validated: every 35-byte sequence whose
last two bytes equal the first two checksum bytes of its first 33 bytes
decodes to the identifier formed by bytes 1..33, whatever the first byte. -/
theorem claim6_no_prefix_validation (b : List Nat) (hlen : b.length = 35)
    (hlt : ∀ y ∈ b, y < 256)
    (hck : b.drop 33 = (hash_account (b.take 33)).take 2) :
    AccountId.from_str (String.mk ((encode58 b).map Char.ofNat)) =
      .ok ⟨(b.take 33).drop 1⟩ := by
  rw [from_str_encode58 b hlen hlt, if_pos hck]

theorem claim6_no_prefix_validation_witness :
    (0 :: (List.replicate 32 0 ++ [212, 190])).take 1 = [0] ∧
    AccountId.from_str
        (String.mk ((encode58 (0 :: (List.replicate 32 0 ++ [212, 190]))).map Char.ofNat)) =
      .ok ⟨((0 :: (List.replicate 32 0 ++ [212, 190])).take 33).drop 1⟩ :=
  ⟨by decide,
    claim6_no_prefix_validation (0 :: (List.replicate 32 0 ++ [212, 190]))
      (by decide) (by decide) (by decide)⟩

/-- C7: decoding is total: from_str never reaches a panicking slice or
unwrap; the checked decoder always returns some result, namely the one
from_str returns. -/
theorem claim7_decode_total (s : String) :
    AccountId.fromStrChecked s = some (AccountId.from_str s) := by
  obtain ⟨r, hr⟩ := Option.isSome_iff_exists.mp (fromStrChecked_isSome s)
  rw [hr]
  unfold AccountId.from_str
  rw [hr]
  rfl

/-- C8: storage_key depends only on the concatenated byte sequence
module ++ 0x20 ++ item, not on where the pair is split. -/
theorem claim8_split_invariance (m i m2 i2 : List Nat)
    (h : m ++ 32 :: i = m2 ++ 32 :: i2) :
    storage_key m i = storage_key m2 i2 := by
  rw [storage_key_eq_spec, storage_key_eq_spec]
  unfold storage_key_spec
  rw [h]

theorem claim8_split_invariance_witness :
    [65] ++ 32 :: [66, 32, 67] = [65, 32, 66] ++ 32 :: [67] ∧
    storage_key [65] [66, 32, 67] = storage_key [65, 32, 66] [67] :=
  ⟨by decide, claim8_split_invariance [65] [66, 32, 67] [65, 32, 66] [67] (by decide)⟩

/-- C9: equality, hashing and ordering of AccountId are determined solely
by the 32 raw bytes: modelled PartialEq agrees with byte equality, the
modelled Hash is a function of the bytes, and the modelled partial_cmp is
total and coincides with the lexicographic order of the byte arrays. -/
theorem claim9_derived_instances (a b : AccountId) :
    (accountIdEq a b = true ↔ a = b) ∧
    (a = b ↔ a.bytes = b.bytes) ∧
    (∀ (σ : Type) (H : HasherModel σ) (st : σ), a.bytes = b.bytes →
      accountIdHash H st a = accountIdHash H st b) ∧
    accountIdCmpOpt a b = some (cmpBytes a.bytes b.bytes) ∧
    (cmpBytes a.bytes b.bytes = .eq ↔ a = b) := by
  refine ⟨?_, ?_, ?_, ?_, ?_⟩
  · unfold accountIdEq
    rw [beq_iff_eq]
    cases a; cases b; simp
  · cases a; cases b; simp
  · intro σ H st h
    unfold accountIdHash
    rw [h]
  · exact optCmpBytes_total a.bytes b.bytes
  · rw [cmpBytes_eq_iff]
    cases a; cases b; simp

theorem claim9_derived_instances_witness :
    accountIdEq ⟨[1, 2]⟩ ⟨[1, 2]⟩ = true ∧
    accountIdHash xxHasher (xxWithSeed 0) ⟨[1, 2]⟩ =
      accountIdHash xxHasher (xxWithSeed 0) ⟨[1, 2]⟩ ∧
    accountIdCmpOpt ⟨[1, 2]⟩ ⟨[1, 3]⟩ = some (cmpBytes [1, 2] [1, 3]) :=
  ⟨(claim9_derived_instances ⟨[1, 2]⟩ ⟨[1, 2]⟩).1.mpr rfl,
    (claim9_derived_instances ⟨[1, 2]⟩ ⟨[1, 2]⟩).2.2.1 XxState xxHasher (xxWithSeed 0) rfl,
    (claim9_derived_instances ⟨[1, 2]⟩ ⟨[1, 3]⟩).2.2.2.1⟩

/-- C10: the empty string base-58-decodes successfully to zero bytes, so
from_str "" fails with the length error reporting 0 bytes, not with the
base-58 decoder error. -/
theorem claim10_empty_string :
    decode58 (strBytes "") = .ok ([] : List Nat) ∧
    AccountId.from_str "" = .error ⟨"Expected 35 bytes in account ID but found 0"⟩ := by
  constructor
  · rfl
  · rfl

end SubenzymeCodec
